import Mathlib

/-!
Verification development for the ez-i18n translation provisioning core
(packages/core/src: middleware bundle and vite-plugin).

The TypeScript source is shallowly embedded: JSON values become the
inductive `JVal` (JavaScript objects are association lists that preserve
key insertion order, exactly as JS object keys do), filesystem and
network interaction become explicit oracle parameters, and fallible code
returns `Option`/`Except`.
-/

/-- A JSON value as produced by parsing a translation file.  Objects are
ordered association lists, mirroring JS own-property insertion order. -/
inductive JVal where
  | null
  | bool (b : Bool)
  | num (n : Int)
  | str (s : String)
  | arr (elems : List JVal)
  | obj (fields : List (String × JVal))

/-- A JS object: its ordered list of own enumerable properties. -/
abbrev Jobj := List (String × JVal)

/-- JS property read `o[k]` on a plain object: the value of the first
field named `k` (JS objects cannot actually repeat keys). -/
def getKey? : Jobj → String → Option JVal
  | [], _ => none
  | (k', v) :: rest, k => if k' = k then some v else getKey? rest k

/-- JS property write `o[k] = v`: an existing key keeps its position in
insertion order, a new key is appended at the end. -/
def setKey : Jobj → String → JVal → Jobj
  | [], k, v => [(k, v)]
  | (k', v') :: rest, k, v =>
      if k' = k then (k, v) :: rest else (k', v') :: setKey rest k v

/-- The prototype-pollution guard list of `deepMerge`
(middleware bundle, `const FORBIDDEN_KEYS = new Set([...])`). -/
def FORBIDDEN_KEYS : List String := ["__proto__", "constructor", "prototype"]

mutual

/-- One key step of `deepMerge`: given the accumulated value at a key
(`tv = result[key]`) and the source value `sv`, either recurse (both are
non-null non-array objects) or let the source value overwrite.  In the
embedding `JVal.obj` is exactly the JS case
`typeof v === 'object' && v !== null && !Array.isArray(v)`. -/
def mergeOne (tv : Option JVal) (sv : JVal) : JVal :=
  match tv, sv with
  | some (JVal.obj tf), JVal.obj sf => JVal.obj (deepMergeFields tf sf)
  | _, sv => sv
termination_by sizeOf sv

/-- The body of `deepMerge`'s `for (const key of Object.keys(source))`
loop folded over one source object, starting from the accumulated result
`acc`.  Forbidden keys are skipped; other keys are written with
`mergeOne`. -/
def deepMergeFields (acc : Jobj) : Jobj → Jobj
  | [] => acc
  | (k, sv) :: rest =>
      if FORBIDDEN_KEYS.contains k then deepMergeFields acc rest
      else deepMergeFields (setKey acc k (mergeOne (getKey? acc k) sv)) rest
termination_by s => sizeOf s

end

/-- `deepMerge(target, ...sources)` from the middleware bundle: in the
pure value model the initial shallow copy `{...target}` is the identity,
and each source (always an object here, so the
`!source || typeof source !== 'object'` skip never fires) is folded in
left to right. -/
def deepMerge (target : Jobj) (sources : List Jobj) : Jobj :=
  sources.foldl deepMergeFields target

example : deepMerge [("x", JVal.num 1)] [[("x", JVal.num 2), ("y", JVal.num 3)]]
    = [("x", JVal.num 2), ("y", JVal.num 3)] := by
  simp [deepMerge, deepMergeFields, mergeOne, getKey?, setKey, FORBIDDEN_KEYS]

theorem getKey?_setKey_self (acc : Jobj) (k : String) (v : JVal) :
    getKey? (setKey acc k v) k = some v := by
  induction acc with
  | nil => simp [setKey, getKey?]
  | cons p rest ih =>
      obtain ⟨k', v'⟩ := p
      by_cases h : k' = k <;> simp [setKey, getKey?, h, ih]

theorem getKey?_setKey_ne (acc : Jobj) {k k' : String} (v : JVal) (h : k' ≠ k) :
    getKey? (setKey acc k' v) k = getKey? acc k := by
  induction acc with
  | nil => simp [setKey, getKey?, h]
  | cons p rest ih =>
      obtain ⟨k'', v''⟩ := p
      by_cases h2 : k'' = k'
      · subst h2; simp [setKey, getKey?, h]
      · simp [setKey, getKey?, h2, ih]

/-- Keys on the forbidden list are never written by the merge loop:
whatever the accumulated result binds them to is untouched. -/
theorem getKey?_deepMergeFields_forbidden (k : String)
    (hk : k ∈ FORBIDDEN_KEYS) :
    ∀ (s acc : Jobj), getKey? (deepMergeFields acc s) k = getKey? acc k := by
  intro s
  induction s with
  | nil => intro acc; simp [deepMergeFields]
  | cons p rest ih =>
      intro acc
      obtain ⟨k', sv⟩ := p
      by_cases h : k' ∈ FORBIDDEN_KEYS
      · simp [deepMergeFields, h, ih]
      · have hne : k' ≠ k := by rintro rfl; exact h hk
        simp [deepMergeFields, h, ih, getKey?_setKey_ne _ _ hne]

/-- A key that the source object does not carry keeps its accumulated
value across the merge loop. -/
theorem getKey?_deepMergeFields_of_not_mem (k : String) :
    ∀ (s acc : Jobj), k ∉ s.map Prod.fst →
      getKey? (deepMergeFields acc s) k = getKey? acc k := by
  intro s
  induction s with
  | nil => intro acc _; simp [deepMergeFields]
  | cons p rest ih =>
      intro acc hk
      obtain ⟨k', sv⟩ := p
      simp only [List.map_cons, List.mem_cons] at hk
      push_neg at hk
      obtain ⟨hne, hrest⟩ := hk
      by_cases h : k' ∈ FORBIDDEN_KEYS
      · simp [deepMergeFields, h, ih _ hrest]
      · simp [deepMergeFields, h, ih _ hrest,
          getKey?_setKey_ne _ _ (fun he => hne he.symm)]

/-- Characterisation of the merge loop at a non-forbidden key that the
source carries (JS objects never repeat keys, hence the `Nodup`
hypothesis): the result binds it to `mergeOne` of the accumulated value
and the source value. -/
theorem getKey?_deepMergeFields_of_mem (k : String)
    (hk : k ∉ FORBIDDEN_KEYS) :
    ∀ (s acc : Jobj) (sv : JVal), (s.map Prod.fst).Nodup →
      getKey? s k = some sv →
      getKey? (deepMergeFields acc s) k = some (mergeOne (getKey? acc k) sv) := by
  intro s
  induction s with
  | nil => intro acc sv _ h; simp [getKey?] at h
  | cons p rest ih =>
      intro acc sv hnd hget
      obtain ⟨k', sv'⟩ := p
      simp only [List.map_cons, List.nodup_cons] at hnd
      obtain ⟨hnotin, hndrest⟩ := hnd
      by_cases heq : k' = k
      · subst heq
        have hv : sv' = sv := by simpa [getKey?] using hget
        subst hv
        rw [deepMergeFields, if_neg (by simpa using hk)]
        rw [getKey?_deepMergeFields_of_not_mem _ _ _ hnotin]
        rw [getKey?_setKey_self]
      · simp only [getKey?, if_neg heq] at hget
        by_cases h : k' ∈ FORBIDDEN_KEYS
        · simp [deepMergeFields, h, ih _ _ hndrest hget]
        · rw [deepMergeFields, if_neg (by simpa using h)]
          rw [ih _ _ hndrest hget, getKey?_setKey_ne _ _ heq]

theorem mergeOne_obj (tf sf : Jobj) :
    mergeOne (some (JVal.obj tf)) (JVal.obj sf)
      = JVal.obj (deepMergeFields tf sf) := by
  simp [mergeOne]

theorem mergeOne_arr (tv : Option JVal) (ys : List JVal) :
    mergeOne tv (JVal.arr ys) = JVal.arr ys := by
  rcases tv with _ | v
  · simp [mergeOne]
  · cases v <;> simp [mergeOne]

/-- C1, counterexample.  The claim states the keys `__proto__`,
`constructor`, `prototype` never appear in the result of
`deepMerge(A, B)` even when present in either input.  The source only
skips forbidden keys of the *sources*; a forbidden key carried by the
*target* is copied by the initial shallow spread `result = {...target}`
and survives: `deepMerge({prototype: 1}, {})` keeps `prototype`. -/
theorem deepMerge_forbidden_target_key_survives :
    getKey? (deepMerge [("prototype", JVal.num 1)] [[]]) "prototype"
      = some (JVal.num 1) := by
  simp [deepMerge, deepMergeFields, getKey?]

/-- C1 (amended): for objects `A`, `B` (with `B`'s keys distinct, as JS
objects are), `deepMerge(A, B)` recursively merges a key held as a plain
non-array object by both, lets `B`'s array fully replace `A`'s when both
hold arrays, and forbidden keys coming from the source `B` are never
copied: a forbidden key absent from the target `A` is absent from the
result (though one already present in `A` is retained by the shallow
copy of the target). -/
theorem deepMerge_spec (A B : Jobj) (k : String)
    (hnd : (B.map Prod.fst).Nodup) :
    (∀ oa ob, k ∉ FORBIDDEN_KEYS →
        getKey? A k = some (JVal.obj oa) → getKey? B k = some (JVal.obj ob) →
        getKey? (deepMerge A [B]) k = some (JVal.obj (deepMergeFields oa ob))) ∧
    (∀ xs ys, k ∉ FORBIDDEN_KEYS →
        getKey? A k = some (JVal.arr xs) → getKey? B k = some (JVal.arr ys) →
        getKey? (deepMerge A [B]) k = some (JVal.arr ys)) ∧
    (k ∈ FORBIDDEN_KEYS → getKey? A k = none →
        getKey? (deepMerge A [B]) k = none) := by
  refine ⟨fun oa ob hk ha hb => ?_, fun xs ys hk ha hb => ?_, fun hk ha => ?_⟩
  · simp only [deepMerge, List.foldl_cons, List.foldl_nil]
    rw [getKey?_deepMergeFields_of_mem k hk B A _ hnd hb, ha, mergeOne_obj]
  · simp only [deepMerge, List.foldl_cons, List.foldl_nil]
    rw [getKey?_deepMergeFields_of_mem k hk B A _ hnd hb, mergeOne_arr]
  · simp only [deepMerge, List.foldl_cons, List.foldl_nil]
    rw [getKey?_deepMergeFields_forbidden k hk B A, ha]

/-- Concrete instantiation of `deepMerge_spec`: nested objects merge
recursively, arrays are replaced by the source's array, and the
forbidden source key `__proto__` does not appear in the result. -/
theorem deepMerge_spec_witness :
    getKey? (deepMerge
        [("a", JVal.obj [("x", JVal.num 1)]), ("l", JVal.arr [JVal.num 1])]
        [[("a", JVal.obj [("y", JVal.num 2)]), ("l", JVal.arr [JVal.num 2]),
          ("__proto__", JVal.num 9)]]) "a"
      = some (JVal.obj (deepMergeFields [("x", JVal.num 1)] [("y", JVal.num 2)])) ∧
    getKey? (deepMerge
        [("a", JVal.obj [("x", JVal.num 1)]), ("l", JVal.arr [JVal.num 1])]
        [[("a", JVal.obj [("y", JVal.num 2)]), ("l", JVal.arr [JVal.num 2]),
          ("__proto__", JVal.num 9)]]) "l"
      = some (JVal.arr [JVal.num 2]) ∧
    getKey? (deepMerge
        [("a", JVal.obj [("x", JVal.num 1)]), ("l", JVal.arr [JVal.num 1])]
        [[("a", JVal.obj [("y", JVal.num 2)]), ("l", JVal.arr [JVal.num 2]),
          ("__proto__", JVal.num 9)]]) "__proto__"
      = none := by
  refine ⟨?_, ?_, ?_⟩
  · exact (deepMerge_spec _ _ "a" (by decide)).1 _ _ (by decide) rfl rfl
  · exact (deepMerge_spec _ _ "l" (by decide)).2.1 _ _ (by decide) rfl rfl
  · exact (deepMerge_spec _ _ "__proto__" (by decide)).2.2 (by decide) rfl

/-- JS `[...new Set(files)]`: keep the first occurrence of each element,
in encounter order.  `seen` is the set built so far. -/
def jsSetDedupAux : List String → List String → List String
  | [], _ => []
  | x :: xs, seen =>
      if x ∈ seen then jsSetDedupAux xs seen
      else x :: jsSetDedupAux xs (x :: seen)

/-- JS `[...new Set(files)]` with an empty initial set. -/
def jsSetDedup (xs : List String) : List String := jsSetDedupAux xs []

/-- Lexicographic comparison of char lists: the embedding's rendering
of the alphabetical order that `a.localeCompare(b)` sorting produces. -/
def charListLe : List Char → List Char → Bool
  | [], _ => true
  | _ :: _, [] => false
  | a :: as, b :: bs => if a = b then charListLe as bs else decide (a < b)

theorem charListLe_total :
    ∀ as bs : List Char, charListLe as bs = true ∨ charListLe bs as = true := by
  intro as
  induction as with
  | nil => intro bs; left; rfl
  | cons a as ih =>
      intro bs
      cases bs with
      | nil => right; rfl
      | cons b bs =>
          by_cases h : a = b
          · subst h
            simp only [charListLe, if_pos rfl]
            exact ih bs
          · rcases lt_or_gt_of_ne h with hlt | hgt
            · left; simp [charListLe, h, hlt]
            · right
              have hne : b ≠ a := fun e => h e.symm
              simp [charListLe, hne, hgt]

theorem charListLe_trans : ∀ as bs cs : List Char,
    charListLe as bs = true → charListLe bs cs = true →
    charListLe as cs = true := by
  intro as
  induction as with
  | nil => intro bs cs _ _; rfl
  | cons a as ih =>
      intro bs cs hab hbc
      cases bs with
      | nil => simp [charListLe] at hab
      | cons b bs =>
          cases cs with
          | nil => simp [charListLe] at hbc
          | cons c cs =>
              by_cases h1 : a = b
              · subst h1
                simp only [charListLe, if_pos rfl] at hab
                by_cases h2 : a = c
                · subst h2
                  simp only [charListLe, if_pos rfl] at hbc ⊢
                  exact ih _ _ hab hbc
                · simp only [charListLe, if_neg h2] at hbc ⊢
                  exact hbc
              · simp only [charListLe, if_neg h1] at hab
                have hab' : a < b := of_decide_eq_true hab
                by_cases h2 : b = c
                · subst h2
                  simp [charListLe, h1, hab']
                · simp only [charListLe, if_neg h2] at hbc
                  have hbc' : b < c := of_decide_eq_true hbc
                  have hac : a < c := lt_trans hab' hbc'
                  simp [charListLe, ne_of_lt hac, hac]

theorem charListLe_antisymm : ∀ as bs : List Char,
    charListLe as bs = true → charListLe bs as = true → as = bs := by
  intro as
  induction as with
  | nil =>
      intro bs _ hba
      cases bs with
      | nil => rfl
      | cons b bs => simp [charListLe] at hba
  | cons a as ih =>
      intro bs hab hba
      cases bs with
      | nil => simp [charListLe] at hab
      | cons b bs =>
          by_cases h : a = b
          · subst h
            simp only [charListLe, if_pos rfl] at hab hba
            rw [ih _ hab hba]
          · simp only [charListLe, if_neg h] at hab
            have h2 : b ≠ a := fun e => h e.symm
            simp only [charListLe, if_neg h2] at hba
            exact absurd (of_decide_eq_true hba) (lt_asymm (of_decide_eq_true hab))

/-- The comparison `(a, b) => a.localeCompare(b)` as a Boolean order on
strings. -/
def strLeB (a b : String) : Bool := charListLe a.data b.data

/-- `strLeB` as a relation, for use with `List.insertionSort`. -/
def StrLe (a b : String) : Prop := strLeB a b = true

instance : DecidableRel StrLe := fun a b =>
  inferInstanceAs (Decidable (strLeB a b = true))

instance : IsTotal String StrLe :=
  ⟨fun a b => charListLe_total a.data b.data⟩

instance : IsTrans String StrLe :=
  ⟨fun a b c => charListLe_trans a.data b.data c.data⟩

instance : IsAntisymm String StrLe :=
  ⟨fun a b hab hba => by
    obtain ⟨la⟩ := a
    obtain ⟨lb⟩ := b
    exact congrArg String.mk (charListLe_antisymm la lb hab hba)⟩

/-- JS `files.sort((a, b) => a.localeCompare(b))`. -/
def sortStrings (xs : List String) : List String :=
  xs.insertionSort StrLe

/-- The tail of `resolveTranslationPaths`:
`[...new Set(files)].sort((a, b) => a.localeCompare(b))`. -/
def dedupSort (xs : List String) : List String := sortStrings (jsSetDedup xs)

theorem mem_jsSetDedupAux (x : String) :
    ∀ (xs seen : List String), x ∈ jsSetDedupAux xs seen ↔ x ∈ xs ∧ x ∉ seen := by
  intro xs
  induction xs with
  | nil => intro seen; simp [jsSetDedupAux]
  | cons y ys ih =>
      intro seen
      by_cases h : y ∈ seen
      · simp only [jsSetDedupAux, if_pos h, ih, List.mem_cons]
        constructor
        · rintro ⟨hx, hns⟩
          exact ⟨Or.inr hx, hns⟩
        · rintro ⟨rfl | hx, hns⟩
          · exact absurd h hns
          · exact ⟨hx, hns⟩
      · simp only [jsSetDedupAux, if_neg h, List.mem_cons, ih]
        constructor
        · rintro (rfl | ⟨hx, hns⟩)
          · exact ⟨Or.inl rfl, h⟩
          · exact ⟨Or.inr hx, fun hs => hns (Or.inr hs)⟩
        · rintro ⟨rfl | hx, hns⟩
          · exact Or.inl rfl
          · by_cases hxy : x = y
            · exact Or.inl hxy
            · refine Or.inr ⟨hx, fun hs => ?_⟩
              rcases hs with he | hs'
              · exact hxy he
              · exact hns hs'

theorem nodup_jsSetDedupAux :
    ∀ (xs seen : List String), (jsSetDedupAux xs seen).Nodup := by
  intro xs
  induction xs with
  | nil => intro seen; simp [jsSetDedupAux]
  | cons y ys ih =>
      intro seen
      by_cases h : y ∈ seen
      · simpa [jsSetDedupAux, h] using ih seen
      · simp only [jsSetDedupAux, if_neg h, List.nodup_cons]
        refine ⟨fun hmem => ?_, ih _⟩
        rw [mem_jsSetDedupAux] at hmem
        exact hmem.2 (List.mem_cons_self _ _)

theorem mem_dedupSort (x : String) (xs : List String) :
    x ∈ dedupSort xs ↔ x ∈ xs := by
  rw [dedupSort, sortStrings, List.mem_insertionSort, jsSetDedup, mem_jsSetDedupAux]
  simp

theorem nodup_dedupSort (xs : List String) : (dedupSort xs).Nodup :=
  ((List.perm_insertionSort _ _).nodup_iff).mpr (nodup_jsSetDedupAux xs [])

theorem sorted_dedupSort (xs : List String) :
    (dedupSort xs).Sorted StrLe :=
  List.sorted_insertionSort _ _

/-- Two path lists with the same members dedup-and-sort to the same
list: the canonical sorted representation of the underlying set. -/
theorem dedupSort_eq_of_mem_iff {xs ys : List String}
    (h : ∀ a, a ∈ xs ↔ a ∈ ys) : dedupSort xs = dedupSort ys := by
  refine List.eq_of_perm_of_sorted ?_ (sorted_dedupSort xs) (sorted_dedupSort ys)
  rw [List.perm_ext_iff_of_nodup (nodup_dedupSort xs) (nodup_dedupSort ys)]
  intro a
  rw [mem_dedupSort, mem_dedupSort]
  exact h a

/-- A `LocaleTranslationPath` from types.ts: `string | string[]` (the
members of an array are single path strings). -/
inductive LocaleTranslationPath where
  | single (p : String)
  | list (ps : List String)

/-- Character-level `s.slice(n)` (drop the first `n` characters). -/
def strDrop (s : String) (n : Nat) : String := String.mk (s.data.drop n)

/-- Character-level drop of the last `n` characters. -/
def strDropRight (s : String) (n : Nat) : String :=
  String.mk (s.data.take (s.data.length - n))

/-- Character-level `s.startsWith(p)`. -/
def strStartsWith (s p : String) : Bool := p.data.isPrefixOf s.data

/-- Character-level `s.endsWith(p)`. -/
def strEndsWith (s p : String) : Bool := p.data.isSuffixOf s.data

/-- The `file | folder | glob | array` classification of
`detectPathType` (array input → array; contains `*` → glob; trailing
separator → folder; otherwise file). -/
inductive PathType where
  | file | folder | glob | array
deriving DecidableEq

def detectPathType : LocaleTranslationPath → PathType
  | .list _ => .array
  | .single p =>
      if p.data.contains '*' then .glob
      else if strEndsWith p "/" then .folder
      else .file

/-- JS `input.replace(/\/$/, '')`: drop one trailing slash. -/
def stripTrailingSlash (s : String) : String :=
  if strEndsWith s "/" then strDropRight s 1 else s

/-- Modelled from node `path.resolve(root, p)` for the normalised inputs
the resolver sees: an absolute path stands, a leading `./` is stripped
and the rest is joined to the absolute project root. -/
def pathResolve (root p : String) : String :=
  if strStartsWith p "/" then p
  else if strStartsWith p "./" then root ++ "/" ++ strDrop p 2
  else root ++ "/" ++ p

/-- The non-array arm of `resolveTranslationPaths` before the final
dedup-and-sort: the filesystem (glob expansion of a glob pattern, JSON
scan of a folder, directory re-classification of a `file`-typed path)
enters through the oracles `fsGlob`, `fsGlobJson` and `fsIsDir`. -/
def expandEntry (fsIsDir : String → Bool) (fsGlobJson : String → List String)
    (fsGlob : String → List String) (projectRoot : String) (p : String) :
    List String :=
  match detectPathType (.single p) with
  | .glob => fsGlob p
  | .folder => fsGlobJson (pathResolve projectRoot (stripTrailingSlash p))
  | _ =>
      let filePath := pathResolve projectRoot p
      if fsIsDir filePath then fsGlobJson filePath else [filePath]

/-- `resolveTranslationPaths(input, projectRoot)` over an abstract
single-entry expansion `expand` (instantiated with `expandEntry` for a
concrete filesystem): every arm ends in
`[...new Set(files)].sort((a, b) => a.localeCompare(b))`, and the array
arm first concatenates each member's own (already dedup-sorted)
expansion in listed order. -/
def resolveTranslationPaths (expand : String → List String) :
    LocaleTranslationPath → List String
  | .single p => dedupSort (expand p)
  | .list ps => dedupSort (ps.flatMap (fun p => dedupSort (expand p)))

/-- C2: for an array-valued per-locale config, the resolved file list is
the deduplicated, alphabetically sorted union of the expanded member
paths, and it is invariant under permutation of the configured array. -/
theorem resolveTranslationPaths_array_spec (expand : String → List String)
    (l1 l2 : List String) (hperm : l1.Perm l2) :
    resolveTranslationPaths expand (.list l1)
        = resolveTranslationPaths expand (.list l2) ∧
    resolveTranslationPaths expand (.list l1)
        = dedupSort (l1.flatMap expand) := by
  constructor
  · simp only [resolveTranslationPaths]
    apply dedupSort_eq_of_mem_iff
    intro a
    simp only [List.mem_flatMap]
    constructor
    · rintro ⟨p, hp, hap⟩
      exact ⟨p, hperm.mem_iff.mp hp, hap⟩
    · rintro ⟨p, hp, hap⟩
      exact ⟨p, hperm.mem_iff.mpr hp, hap⟩
  · simp only [resolveTranslationPaths]
    apply dedupSort_eq_of_mem_iff
    intro a
    simp only [List.mem_flatMap, mem_dedupSort]

/-- Expansion oracle for the witness: two config entries, one expanding
to two files (unsorted, with a duplicate), one to a single file. -/
def c2Expand : String → List String := fun p =>
  if p = "b" then ["/r/b2", "/r/b1", "/r/b2"]
  else if p = "a" then ["/r/a1"]
  else []

/-- Concrete instantiation of `resolveTranslationPaths_array_spec` on a
permuted two-entry array config. -/
theorem resolveTranslationPaths_array_spec_witness :
    resolveTranslationPaths c2Expand (.list ["b", "a"])
        = resolveTranslationPaths c2Expand (.list ["a", "b"]) ∧
    resolveTranslationPaths c2Expand (.list ["b", "a"])
        = dedupSort (["b", "a"].flatMap c2Expand) :=
  resolveTranslationPaths_array_spec c2Expand _ _ (by decide)


/-- Filesystem oracle for the C3 example: nothing on disk is a
directory, so the two configured `.json` entries resolve as plain
files under the project root `/proj`. -/
def c3Expand : String → List String :=
  expandEntry (fun _ => false) (fun _ => []) (fun _ => []) "/proj"

/-- Parsed content of `a.json` in the C3 example. -/
def c3ContentA : Jobj := [("x", JVal.num 1)]

/-- Parsed content of `b.json` in the C3 example. -/
def c3ContentB : Jobj := [("x", JVal.num 2), ("y", JVal.num 3)]

/-- C3: for config `{en: ['./b.json', './a.json']}` the resolved order
is alphabetical, `[a.json, b.json]`, and deep-merging the two files'
contents in that resolved order (as the generated loader does with
`__deepMerge({}, ...contents)`) yields `{x: 2, y: 3}` — b.json, sorted
last, wins on `x`. -/
theorem resolve_then_merge_example :
    resolveTranslationPaths c3Expand (.list ["./b.json", "./a.json"])
      = ["/proj/a.json", "/proj/b.json"] ∧
    deepMerge [] [c3ContentA, c3ContentB]
      = [("x", JVal.num 2), ("y", JVal.num 3)] := by
  constructor
  · decide
  · simp [deepMerge, deepMergeFields, mergeOne, getKey?, setKey,
      FORBIDDEN_KEYS, c3ContentA, c3ContentB]

/-- Modelled from node `path.relative(fromDir, p)` for the case the
namespace deriver uses, where `fromDir` is an ancestor directory of the
absolute path `p`. -/
def pathRelative (fromDir p : String) : String :=
  if p = fromDir then ""
  else if strStartsWith p (fromDir ++ "/") then strDrop p (fromDir.data.length + 1)
  else p

/-- JS `relative.replace(/\.json$/i, '')`: strip one case-insensitive
`.json` suffix (checked character by character on the reversed
string). -/
def stripJsonExt (s : String) : String :=
  match s.data.reverse with
  | n :: o :: sc :: j :: d :: _ =>
      if (n = 'n' ∨ n = 'N') ∧ (o = 'o' ∨ o = 'O') ∧ (sc = 's' ∨ sc = 'S') ∧
          (j = 'j' ∨ j = 'J') ∧ d = '.' then strDropRight s 5
      else s
  | _ => s

/-- JS `withoutExt.replace(/[\\/]/g, '.')`: every path separator becomes
a dot. -/
def sepToDot (s : String) : String :=
  String.mk (s.data.map fun c => if c = '/' ∨ c = '\\' then '.' else c)

/-- JS `namespace.replace(/\.index$/, '')`: strip one trailing `.index`
segment. -/
def stripIndexSuffix (s : String) : String :=
  if strEndsWith s ".index" then strDropRight s 6 else s

/-- `getNamespaceFromPath(filePath, localeDir)`: relative path, minus
`.json`, separators to dots, minus a trailing `.index`. -/
def getNamespaceFromPath (filePath localeDir : String) : String :=
  stripIndexSuffix (sepToDot (stripJsonExt (pathRelative localeDir filePath)))

/-- C4 (code behaviour at the claim's input): a file literally named
`index.json` directly inside the locale base directory yields the
namespace `"index"`, not the empty namespace — the final
`replace(/\.index$/, '')` needs a leading dot, which a root-level
`index` has not, even though a nested `settings/index.json` is stripped
to `settings` as the function's own doc comment describes. -/
theorem getNamespaceFromPath_root_index :
    getNamespaceFromPath "/proj/public/i18n/en/index.json" "/proj/public/i18n/en"
      = "index" ∧
    getNamespaceFromPath "/proj/public/i18n/en/settings/index.json" "/proj/public/i18n/en"
      = "settings" := by
  constructor <;> decide

/-- JS `namespace.split('.')` on the character list (`[[]]` for the
empty string, exactly as `''.split('.')` is `['']`). -/
def splitCharsOnDot : List Char → List (List Char)
  | [] => [[]]
  | c :: cs =>
      let r := splitCharsOnDot cs
      if c = '.' then [] :: r
      else
        match r with
        | [] => [[c]]
        | h :: t => (c :: h) :: t

/-- JS `s.split('.')`. -/
def splitOnDot (s : String) : List String :=
  (splitCharsOnDot s.data).map String.mk

/-- `wrapWithNamespace(namespace, content)`: empty namespace returns the
content unchanged; otherwise nested single-key objects are built from
the dot segments, inside out. -/
def wrapWithNamespace (ns : String) (content : Jobj) : Jobj :=
  if ns = "" then content
  else (splitOnDot ns).foldr (fun part acc => [(part, JVal.obj acc)]) content

example : wrapWithNamespace "auth.login" [("title", JVal.str "Hi")]
    = [("auth", JVal.obj [("login", JVal.obj [("title", JVal.str "Hi")])])] := rfl

/-- The `loadTranslations(locale)` function emitted by both the dev and
the build generator: look the loader up in the emitted map (`none` if
the locale has no configured loader), await it inside try/catch, and
turn a missing loader, a thrown error or a rejected promise (`Except
.error`) into the empty object. -/
def loadTranslations (loaders : String → Option (Except String Jobj))
    (locale : String) : Jobj :=
  match loaders locale with
  | none => []
  | some (Except.ok v) => v
  | some (Except.error _) => []

/-- The loader bodies the build generator emits for non-public files,
over an oracle `load` for one file's dynamic import (its `Except.error`
models a rejected import): zero files resolve to `{}` touching no file,
one file is imported (namespace-wrapped when enabled), several files are
imported with `Promise.all` — one failure rejects the joined promise —
and deep-merged in list order. -/
def buildLoader (load : String → Except String Jobj) (nsOf : String → String)
    (pathNs : Bool) (files : List String) : Except String Jobj :=
  match files with
  | [] => Except.ok []
  | [f] =>
      if pathNs then (load f).map (fun m => wrapWithNamespace (nsOf f) m)
      else load f
  | fs => do
      let mods ← fs.mapM load
      if pathNs then
        return deepMerge [] ((fs.zip mods).map fun fm => wrapWithNamespace (nsOf fm.1) fm.2)
      else
        return deepMerge [] mods

/-- C5: `loadTranslations` never rejects — a locale without a loader
yields `{}`, the zero-file loader resolves to `{}` for every filesystem
oracle (no file is consulted), a loader error is swallowed into `{}`,
and a successful loader's value is passed through. -/
theorem loadTranslations_total_spec
    (loaders : String → Option (Except String Jobj))
    (load : String → Except String Jobj) (nsOf : String → String)
    (pathNs : Bool) (locale : String) :
    (loaders locale = none → loadTranslations loaders locale = []) ∧
    (buildLoader load nsOf pathNs [] = Except.ok []) ∧
    (∀ e, loaders locale = some (Except.error e) →
        loadTranslations loaders locale = []) ∧
    (∀ v, loaders locale = some (Except.ok v) →
        loadTranslations loaders locale = v) := by
  refine ⟨fun h => ?_, rfl, fun e h => ?_, fun v h => ?_⟩ <;>
    simp [loadTranslations, h]

/-- Concrete instantiation of `loadTranslations_total_spec`: an
unconfigured locale, a zero-file loader over an always-failing
filesystem, and a rejecting loader all produce the empty object. -/
theorem loadTranslations_total_spec_witness :
    loadTranslations (fun _ => none) "en" = [] ∧
    buildLoader (fun _ => Except.error "io") (fun _ => "") true []
      = Except.ok [] ∧
    loadTranslations (fun _ => some (Except.error "parse error")) "en" = [] :=
  ⟨(loadTranslations_total_spec (fun _ => none)
      (fun _ => Except.ok []) (fun _ => "") true "en").1 rfl,
    (loadTranslations_total_spec (fun _ => none)
      (fun _ => Except.error "io") (fun _ => "") true "en").2.1,
    (loadTranslations_total_spec (fun _ => some (Except.error "parse error"))
      (fun _ => Except.ok []) (fun _ => "") true "en").2.2.1 "parse error" rfl⟩

/-- The persisted discovery cache
(`{version, discovered, lastScan}` in `.ez-i18n.json`). -/
structure TranslationCache where
  version : Nat
  discovered : List (String × List String)
  lastScan : String

/-- `const CACHE_VERSION = 1`. -/
def CACHE_VERSION : Nat := 1

/-- The possible outcomes of reading the cache file in `loadCache`:
the file is absent (`existsSync` false), `readFileSync` threw,
`JSON.parse` threw, or a cache value was parsed. -/
inductive CacheRead where
  | missing
  | unreadable
  | malformed
  | parsed (c : TranslationCache)

/-- `loadCache(projectRoot)`: any read/parse failure is caught and
returns null; a parsed cache with the wrong version stamp also returns
null. -/
def loadCache : CacheRead → Option TranslationCache
  | CacheRead.parsed c => if c.version = CACHE_VERSION then some c else none
  | _ => none

/-- `isCacheValid(cache, projectRoot)`: every file of every locale's
cached list must still exist (`fileExists` models `fs.existsSync`). -/
def isCacheValid (fileExists : String → Bool) (cache : TranslationCache) : Bool :=
  cache.discovered.all fun lf => lf.2.all fileExists

/-- C6: `loadCache` returns a cache only when one was parsed and its
version stamp matches (missing, unreadable, malformed and
version-mismatched reads all yield none), and `isCacheValid` is true
iff every file listed for every locale still exists — one missing file
invalidates the whole cache. -/
theorem cache_load_and_valid_spec (r : CacheRead) (c : TranslationCache)
    (fileExists : String → Bool) (cache : TranslationCache) :
    (loadCache r = some c → r = CacheRead.parsed c ∧ c.version = CACHE_VERSION) ∧
    (loadCache CacheRead.missing = none ∧ loadCache CacheRead.unreadable = none ∧
      loadCache CacheRead.malformed = none) ∧
    (c.version ≠ CACHE_VERSION → loadCache (CacheRead.parsed c) = none) ∧
    (isCacheValid fileExists cache = true ↔
      ∀ locale files, (locale, files) ∈ cache.discovered →
        ∀ f ∈ files, fileExists f = true) := by
  refine ⟨?_, ⟨rfl, rfl, rfl⟩, ?_, ?_⟩
  · intro h
    cases r with
    | parsed c' =>
        by_cases hv : c'.version = CACHE_VERSION
        · simp only [loadCache, if_pos hv, Option.some.injEq] at h
          subst h
          exact ⟨rfl, hv⟩
        · simp [loadCache, hv] at h
    | missing => simp [loadCache] at h
    | unreadable => simp [loadCache] at h
    | malformed => simp [loadCache] at h
  · intro hv
    simp [loadCache, hv]
  · simp only [isCacheValid, List.all_eq_true]
    constructor
    · intro h locale files hmem f hf
      exact h ⟨locale, files⟩ hmem f hf
    · intro h p hp f hf
      exact h p.1 p.2 (by simpa using hp) f hf

/-- Concrete instantiation of `cache_load_and_valid_spec`: a parsed
cache with matching version loads, a version-2 stamp is discarded, and
a cache whose files all exist validates. -/
theorem cache_load_and_valid_spec_witness :
    (CacheRead.parsed ⟨1, [("en", ["/proj/a.json"])], "t"⟩
        = CacheRead.parsed (⟨1, [("en", ["/proj/a.json"])], "t"⟩ : TranslationCache) ∧
      (⟨1, [("en", ["/proj/a.json"])], "t"⟩ : TranslationCache).version = CACHE_VERSION) ∧
    loadCache (CacheRead.parsed ⟨2, [], "t"⟩) = none ∧
    isCacheValid (fun _ => true) ⟨1, [("en", ["/proj/a.json"])], "t"⟩ = true :=
  ⟨(cache_load_and_valid_spec (CacheRead.parsed ⟨1, [("en", ["/proj/a.json"])], "t"⟩)
        ⟨1, [("en", ["/proj/a.json"])], "t"⟩ (fun _ => true)
        ⟨1, [("en", ["/proj/a.json"])], "t"⟩).1 rfl,
    (cache_load_and_valid_spec CacheRead.missing ⟨2, [], "t"⟩ (fun _ => true)
        ⟨1, [], "t"⟩).2.2.1 (by decide),
    (cache_load_and_valid_spec CacheRead.missing ⟨2, [], "t"⟩ (fun _ => true)
        ⟨1, [("en", ["/proj/a.json"])], "t"⟩).2.2.2.mpr
      (fun _ _ _ f _ => rfl)⟩

/-- One entry of `fs.readdirSync(dir, {withFileTypes: true})`. -/
structure DirEntry where
  name : String
  isDir : Bool
  isFile : Bool

/-- The filesystem surface `autoDiscoverTranslations` touches:
`statSync(..).isDirectory()`, `readdirSync`, and the recursive
`glob('**/*.json', {cwd, absolute: true})` scan of a directory. -/
structure FS where
  isDirectory : String → Bool
  readdir : String → List DirEntry
  globJson : String → List String

/-- node `path.join(a, b)` for plain segments. -/
def pathJoin (a b : String) : String := a ++ "/" ++ b

/-- Assoc-list read of the `translations` record built during
discovery. -/
def lookupFiles : List (String × List String) → String → Option (List String)
  | [], _ => none
  | (k, v) :: rest, locale => if k = locale then some v else lookupFiles rest locale

/-- Assoc-list write `translations[locale] = files` (existing key keeps
its position, new key appended). -/
def setFiles : List (String × List String) → String → List String →
    List (String × List String)
  | [], locale, files => [(locale, files)]
  | (k, v) :: rest, locale, files =>
      if k = locale then (locale, files) :: rest
      else (k, v) :: setFiles rest locale files

/-- The `if (configuredLocales && configuredLocales.length > 0)` filter:
a candidate locale is kept unless a non-empty allow-list excludes it. -/
def keepLocale (configuredLocales : Option (List String)) (locale : String) : Bool :=
  match configuredLocales with
  | some l => if l.length > 0 then l.contains locale else true
  | none => true

/-- One iteration of `autoDiscoverTranslations`' entry loop, carrying
`(discoveredLocales, translations)`: a subdirectory is a candidate
locale kept when its recursive JSON scan is non-empty (files sorted);
a root-level `<name>.json` file contributes to locale `<name>`,
appending to an existing file list. -/
def discoverStep (fs : FS) (absBase : String) (cfg : Option (List String))
    (st : List String × List (String × List String)) (entry : DirEntry) :
    List String × List (String × List String) :=
  if entry.isDir then
    let locale := entry.name
    if keepLocale cfg locale then
      let files := fs.globJson (pathJoin absBase locale)
      if files.length > 0 then
        (st.1 ++ [locale], setFiles st.2 locale (sortStrings files))
      else st
    else st
  else if entry.isFile && strEndsWith entry.name ".json" then
    let locale := strDropRight entry.name 5
    if keepLocale cfg locale then
      let filePath := pathJoin absBase entry.name
      match lookupFiles st.2 locale with
      | none => (st.1 ++ [locale], st.2 ++ [(locale, [filePath])])
      | some existing => (st.1, setFiles st.2 locale (existing ++ [filePath]))
    else st
  else st

/-- `autoDiscoverTranslations(baseDir, projectRoot, configuredLocales)`:
a missing base directory warns and returns the configured locale list
(or `[]`) with an empty translations mapping; otherwise the directory
entries are folded with `discoverStep` and the discovered locales are
deduplicated and sorted. -/
def autoDiscoverTranslations (fs : FS) (baseDir projectRoot : String)
    (configuredLocales : Option (List String)) :
    List String × List (String × List String) :=
  let absoluteBaseDir := pathResolve projectRoot (stripTrailingSlash baseDir)
  if fs.isDirectory absoluteBaseDir = false then
    (configuredLocales.getD [], [])
  else
    let entries := fs.readdir absoluteBaseDir
    let st := entries.foldl (discoverStep fs absoluteBaseDir configuredLocales) ([], [])
    (dedupSort st.1, st.2)

/-- C7: when the configured base directory does not exist, resolution
does not throw — it returns the explicitly configured locale list (or an
empty list) together with an empty locale-to-files mapping. -/
theorem autoDiscover_missing_base_dir (fs : FS) (baseDir projectRoot : String)
    (cfg : Option (List String))
    (h : fs.isDirectory (pathResolve projectRoot (stripTrailingSlash baseDir)) = false) :
    autoDiscoverTranslations fs baseDir projectRoot cfg = (cfg.getD [], []) := by
  simp [autoDiscoverTranslations, h]

/-- An empty filesystem for the C7 witness. -/
def emptyFS : FS := ⟨fun _ => false, fun _ => [], fun _ => []⟩

/-- Concrete instantiation of `autoDiscover_missing_base_dir`: with no
directory on disk, the configured locales come back with no files. -/
theorem autoDiscover_missing_base_dir_witness :
    autoDiscoverTranslations emptyFS "./public/i18n" "/proj" (some ["en", "de"])
      = (["en", "de"], []) :=
  autoDiscover_missing_base_dir emptyFS "./public/i18n" "/proj" (some ["en", "de"]) rfl

/-- JS property read `xs[k]` on an array value for a string key: only a
canonical numeric index hits an element. -/
def arrAccess (xs : List JVal) (k : String) : Option JVal :=
  match k.toNat? with
  | some n => if toString n = k then xs.get? n else none
  | none => none

/-- The dot-path walk shared by `createT` (middleware.ts) and
`getNestedValue` (generated runtime module): follow each segment while
the current value is a non-null object (a JS array is an object whose
own properties are its canonical indices); `none` models `undefined`,
and a `null`, primitive or missing intermediate ends the walk. -/
def walkPath : Option JVal → List String → Option JVal
  | v, [] => v
  | some (JVal.obj fields), k :: rest => walkPath (getKey? fields k) rest
  | some (JVal.arr xs), k :: rest => walkPath (arrAccess xs k) rest
  | _, _ :: _ => none

/-- JS `\w`: an ASCII word character. -/
def isWordChar (c : Char) : Bool := c.isAlphanum || c = '_'

/-- Parameter map read `params[p]` (values already rendered by JS
`String(...)`). -/
def lookupParam : List (String × String) → String → Option String
  | [], _ => none
  | (k, v) :: rest, p => if k = p then some v else lookupParam rest p

/-- The global replace `str.replace(/\x7b(\w+)\x7d/g, ...)` of both
translate functions as a left-to-right scan: an opening brace followed
by one or more word characters and a closing brace is replaced by the
named parameter's value, or left as matched text when the parameter is
absent (middleware: `params[p] ?? ...`; runtime: `key in params`). -/
def interpolateChars (params : List (String × String)) : List Char → List Char
  | [] => []
  | c :: rest =>
      if c = '{' then
        match h : rest.drop (rest.takeWhile isWordChar).length with
        | '}' :: tail =>
            if (rest.takeWhile isWordChar).isEmpty then
              c :: interpolateChars params rest
            else
              (match lookupParam params (String.mk (rest.takeWhile isWordChar)) with
                | some v => v.data
                | none => '{' :: rest.takeWhile isWordChar ++ ['}'])
                ++ interpolateChars params tail
        | _ => c :: interpolateChars params rest
      else c :: interpolateChars params rest
termination_by l => l.length
decreasing_by
  all_goals simp_wf
  all_goals
    (have hlen := congrArg List.length h
     simp at hlen ⊢
     omega)

/-- The `interpolate(str, params)` helper: absent params return the
string unchanged. -/
def interpolate (s : String) (params : Option (List (String × String))) : String :=
  match params with
  | none => s
  | some ps => String.mk (interpolateChars ps s.data)

/-- `createT(translations)` from middleware.ts: split the key on dots,
walk the translations object, return the key itself unless the walk
ends on a string, which is then interpolated. -/
def createT (translations : Jobj) (key : String)
    (params : Option (List (String × String))) : String :=
  match walkPath (some (JVal.obj translations)) (splitOnDot key) with
  | some (JVal.str v) => interpolate v params
  | _ => key

/-- `getNestedValue(obj, path)` from the generated runtime module. -/
def getNestedValue (obj : Option JVal) (path : String) : Option JVal :=
  walkPath obj (splitOnDot path)

/-- `t(key, params)` from the generated runtime module, over the current
value `trans` of the translations store. -/
def runtimeT (trans : Option JVal) (key : String)
    (params : Option (List (String × String))) : String :=
  match getNestedValue trans key with
  | some (JVal.str v) => interpolate v params
  | _ => key

/-- C8: both the server-side `createT` translate function and the
generated runtime `t` are total (never throw), and whenever the
dot-path lookup does not resolve to a string value they return the
lookup key itself. -/
theorem translate_miss_returns_key (translations : Jobj) (trans : Option JVal)
    (key : String) (params : Option (List (String × String)))
    (h1 : ∀ s, walkPath (some (JVal.obj translations)) (splitOnDot key)
        ≠ some (JVal.str s))
    (h2 : ∀ s, walkPath trans (splitOnDot key) ≠ some (JVal.str s)) :
    createT translations key params = key ∧ runtimeT trans key params = key := by
  constructor
  · unfold createT
    split
    · rename_i v heq
      exact absurd heq (h1 v)
    · rfl
  · unfold runtimeT getNestedValue
    split
    · rename_i v heq
      exact absurd heq (h2 v)
    · rfl

/-- Concrete instantiation of `translate_miss_returns_key`: the missing
key `nope.key` looked up against `{x: "hi"}` comes back verbatim from
both translate functions. -/
theorem translate_miss_returns_key_witness :
    createT [("x", JVal.str "hi")] "nope.key" none = "nope.key" ∧
    runtimeT (some (JVal.obj [("x", JVal.str "hi")])) "nope.key" none
      = "nope.key" := by
  refine translate_miss_returns_key _ _ _ _ ?_ ?_ <;>
  · intro s h
    rw [show walkPath (some (JVal.obj [("x", JVal.str "hi")]))
        (splitOnDot "nope.key") = none from rfl] at h
    cases h

/-- The loader strategy a generator picks for one locale, identified by
the template it emits (`publicNoNsMulti` is the non-namespaced public
template whose body textually calls `__deepMerge`; in the build
generator a single public file gets the direct `__loadPublicJson` call
`publicNoNsSingle` instead). -/
inductive Strategy where
  | empty
  | publicNs
  | publicNoNsSingle
  | publicNoNsMulti
  | globNs
  | globNoNs
  | singleNs
  | singleNoNs
  | multiNs
  | multiNoNs
deriving DecidableEq

/-- The per-locale `TranslationInfo` record of vite-plugin.ts. -/
structure TInfo where
  locale : String
  files : List String
  globPattern : Option String
  localeBaseDir : Option String
  isPublic : Bool

/-- The recurring guard `pathBasedNamespacing && info.localeBaseDir`. -/
def nsOn (pathNs : Bool) (i : TInfo) : Bool :=
  pathNs && i.localeBaseDir.isSome

/-- Branch selection of `generateBuildTranslationsModule`'s loader
loop. -/
def buildStrategy (pathNs : Bool) (i : TInfo) : Strategy :=
  if i.files.length = 0 then .empty
  else if i.isPublic then
    if nsOn pathNs i then .publicNs
    else if i.files.length = 1 then .publicNoNsSingle
    else .publicNoNsMulti
  else if i.files.length = 1 then
    if nsOn pathNs i then .singleNs else .singleNoNs
  else if nsOn pathNs i then .multiNs else .multiNoNs

/-- Branch selection of `generateDevTranslationsModule`'s loader loop
(the glob strategies exist only here; the non-namespaced public template
is emitted for any file count). -/
def devStrategy (pathNs : Bool) (i : TInfo) : Strategy :=
  if i.files.length = 0 then .empty
  else if i.isPublic then
    if nsOn pathNs i then .publicNs else .publicNoNsMulti
  else if i.globPattern.isSome && nsOn pathNs i then .globNs
  else if i.globPattern.isSome then .globNoNs
  else if i.files.length = 1 then
    if nsOn pathNs i then .singleNs else .singleNoNs
  else if nsOn pathNs i then .multiNs else .multiNoNs

/-- Whether a strategy's emitted template textually calls
`__deepMerge`. -/
def stratUsesDeepMerge : Strategy → Bool
  | .publicNs | .publicNoNsMulti | .globNs | .globNoNs
  | .multiNs | .multiNoNs => true
  | _ => false

/-- Whether a strategy's emitted template textually calls
`__wrapWithNamespace`. -/
def stratUsesWrap : Strategy → Bool
  | .publicNs | .globNs | .singleNs | .multiNs => true
  | _ => false

/-- Whether a strategy's emitted template textually calls
`__loadPublicJson`. -/
def stratUsesPublicLoader : Strategy → Bool
  | .publicNs | .publicNoNsSingle | .publicNoNsMulti => true
  | _ => false

/-- The three `needsX` locals of `generateBuildTranslationsModule`. -/
structure HelperFlags where
  needsDeepMerge : Bool
  needsNamespaceWrapper : Bool
  needsPublicLoader : Bool

/-- One iteration of the build generator's flag updates, exactly as in
the source: the public branch *assigns* `needsDeepMerge =
info.files.length > 1` (it does not or-accumulate), the multi-file
branch assigns `true`, and the namespace flag is set in every branch
that emits a namespace-wrapping template. -/
def buildHelperStep (pathNs : Bool) (fl : HelperFlags) (i : TInfo) : HelperFlags :=
  if i.files.length = 0 then fl
  else if i.isPublic then
    let fl1 : HelperFlags :=
      { fl with needsPublicLoader := true,
                needsDeepMerge := decide (i.files.length > 1) }
    if nsOn pathNs i then { fl1 with needsNamespaceWrapper := true } else fl1
  else if i.files.length = 1 then
    if nsOn pathNs i then { fl with needsNamespaceWrapper := true } else fl
  else
    let fl1 : HelperFlags := { fl with needsDeepMerge := true }
    if nsOn pathNs i then { fl1 with needsNamespaceWrapper := true } else fl1

/-- One emitted piece of a generated translations module, abstracting
the source text to the granularity the dead-code claim is about: the
three helper function bodies, the dev glob import lines, and one loader
map entry per locale carrying its strategy. -/
inductive Segment where
  | deepMergeHelper
  | nsWrapperHelper
  | publicLoaderHelper
  | globImport (locale : String)
  | loaderEntry (locale : String) (strat : Strategy)
deriving DecidableEq

/-- The flag state after `generateBuildTranslationsModule`'s locale
loop. -/
def buildHelperFlags (pathNs : Bool) (infos : List TInfo) : HelperFlags :=
  infos.foldl (buildHelperStep pathNs) ⟨false, false, false⟩

/-- `generateBuildTranslationsModule`: helper bodies are emitted
according to the flags accumulated over the locale loop, followed by
the loader entries. -/
def generateBuildTranslationsModule (pathNs : Bool) (infos : List TInfo) :
    List Segment :=
  let fl := buildHelperFlags pathNs infos
  (if fl.needsDeepMerge then [Segment.deepMergeHelper] else []) ++
    ((if fl.needsNamespaceWrapper then [Segment.nsWrapperHelper] else []) ++
      ((if fl.needsPublicLoader then [Segment.publicLoaderHelper] else []) ++
        infos.map fun i => Segment.loaderEntry i.locale (buildStrategy pathNs i)))

/-- `generateDevTranslationsModule`: the deepMerge helper is pushed
unconditionally, the namespace wrapper whenever namespacing is enabled,
glob import lines for non-public locales with a glob pattern, the
loader entries, and the public loader helper only when some non-empty
locale is public. -/
def devNeedsPublic (infos : List TInfo) : Bool :=
  infos.any fun i => !(i.files.length = 0) && i.isPublic

def generateDevTranslationsModule (pathNs : Bool) (infos : List TInfo) :
    List Segment :=
  let needsPub := devNeedsPublic infos
  [Segment.deepMergeHelper] ++
    ((if pathNs then [Segment.nsWrapperHelper] else []) ++
      ((infos.filterMap fun i =>
          if !(i.files.length = 0) && !i.isPublic && i.globPattern.isSome then
            some (Segment.globImport i.locale)
          else none) ++
        ((infos.map fun i => Segment.loaderEntry i.locale (devStrategy pathNs i)) ++
          (if needsPub then [Segment.publicLoaderHelper] else []))))

/-- C9, counterexample.  The claim says every generated translations
module contains a helper only when one of its loader strategies invokes
it; but the dev generator pushes the deepMerge helper unconditionally
and the namespace wrapper whenever namespacing is enabled: a dev module
for one zero-file locale under path-based namespacing contains both
`__deepMerge` and `__wrapWithNamespace` while its only strategy (the
`async () => ({})` loader) calls neither. -/
theorem dev_module_helpers_unused :
    generateDevTranslationsModule true [⟨"en", [], none, none, false⟩]
      = [Segment.deepMergeHelper, Segment.nsWrapperHelper,
          Segment.loaderEntry "en" Strategy.empty] ∧
    stratUsesDeepMerge Strategy.empty = false ∧
    stratUsesWrap Strategy.empty = false :=
  ⟨rfl, rfl, rfl⟩

/-- If the build flag fold ends with `needsDeepMerge` set, either it was
set initially and never touched, or some locale's strategy textually
uses `__deepMerge` (the public branch re-assigns rather than
accumulates, so the last assignment decides — and every branch that
assigns `true` emits a `__deepMerge` call). -/
theorem foldl_buildHelperStep_deepMerge (pathNs : Bool) :
    ∀ (infos : List TInfo) (fl : HelperFlags),
      (infos.foldl (buildHelperStep pathNs) fl).needsDeepMerge = true →
      fl.needsDeepMerge = true ∨
        ∃ i ∈ infos, stratUsesDeepMerge (buildStrategy pathNs i) = true := by
  intro infos
  induction infos with
  | nil => intro fl h; exact Or.inl h
  | cons i rest ih =>
      intro fl h
      rcases ih _ h with hstep | ⟨j, hj, hjuse⟩
      · by_cases h0 : i.files.length = 0
        · rw [buildHelperStep, if_pos h0] at hstep
          exact Or.inl hstep
        · by_cases hpub : i.isPublic = true
          · have hdm : decide (i.files.length > 1) = true := by
              by_cases hns : nsOn pathNs i = true
              · simpa [buildHelperStep, h0, hpub, hns] using hstep
              · simpa [buildHelperStep, h0, hpub, hns] using hstep
            have hlen : i.files.length > 1 := of_decide_eq_true hdm
            refine Or.inr ⟨i, List.mem_cons_self _ _, ?_⟩
            by_cases hns : nsOn pathNs i = true
            · simp [buildStrategy, h0, hpub, hns, stratUsesDeepMerge]
            · have h1 : ¬i.files.length = 1 := by omega
              simp [buildStrategy, h0, hpub, hns, h1, stratUsesDeepMerge]
          · by_cases h1 : i.files.length = 1
            · refine Or.inl ?_
              by_cases hns : nsOn pathNs i = true
              · simpa [buildHelperStep, h0, hpub, h1, hns] using hstep
              · simpa [buildHelperStep, h0, hpub, h1, hns] using hstep
            · refine Or.inr ⟨i, List.mem_cons_self _ _, ?_⟩
              by_cases hns : nsOn pathNs i = true
              · simp [buildStrategy, h0, hpub, h1, hns, stratUsesDeepMerge]
              · simp [buildStrategy, h0, hpub, h1, hns, stratUsesDeepMerge]
      · exact Or.inr ⟨j, List.mem_cons_of_mem _ hj, hjuse⟩

/-- Same accounting for the namespace-wrapper flag: it is only ever set
by a branch whose template calls `__wrapWithNamespace`. -/
theorem foldl_buildHelperStep_wrap (pathNs : Bool) :
    ∀ (infos : List TInfo) (fl : HelperFlags),
      (infos.foldl (buildHelperStep pathNs) fl).needsNamespaceWrapper = true →
      fl.needsNamespaceWrapper = true ∨
        ∃ i ∈ infos, stratUsesWrap (buildStrategy pathNs i) = true := by
  intro infos
  induction infos with
  | nil => intro fl h; exact Or.inl h
  | cons i rest ih =>
      intro fl h
      rcases ih _ h with hstep | ⟨j, hj, hjuse⟩
      · by_cases h0 : i.files.length = 0
        · rw [buildHelperStep, if_pos h0] at hstep
          exact Or.inl hstep
        · by_cases hns : nsOn pathNs i = true
          · by_cases hpub : i.isPublic = true
            · refine Or.inr ⟨i, List.mem_cons_self _ _, ?_⟩
              simp [buildStrategy, h0, hpub, hns, stratUsesWrap]
            · by_cases h1 : i.files.length = 1
              · refine Or.inr ⟨i, List.mem_cons_self _ _, ?_⟩
                simp [buildStrategy, h0, hpub, h1, hns, stratUsesWrap]
              · refine Or.inr ⟨i, List.mem_cons_self _ _, ?_⟩
                simp [buildStrategy, h0, hpub, h1, hns, stratUsesWrap]
          · refine Or.inl ?_
            by_cases hpub : i.isPublic = true
            · simpa [buildHelperStep, h0, hpub, hns] using hstep
            · by_cases h1 : i.files.length = 1
              · simpa [buildHelperStep, h0, hpub, h1, hns] using hstep
              · simpa [buildHelperStep, h0, hpub, h1, hns] using hstep
      · exact Or.inr ⟨j, List.mem_cons_of_mem _ hj, hjuse⟩

/-- Same accounting for the public-loader flag: it is only ever set by
the public branch, whose templates all call `__loadPublicJson`. -/
theorem foldl_buildHelperStep_publicLoader (pathNs : Bool) :
    ∀ (infos : List TInfo) (fl : HelperFlags),
      (infos.foldl (buildHelperStep pathNs) fl).needsPublicLoader = true →
      fl.needsPublicLoader = true ∨
        ∃ i ∈ infos, stratUsesPublicLoader (buildStrategy pathNs i) = true := by
  intro infos
  induction infos with
  | nil => intro fl h; exact Or.inl h
  | cons i rest ih =>
      intro fl h
      rcases ih _ h with hstep | ⟨j, hj, hjuse⟩
      · by_cases h0 : i.files.length = 0
        · rw [buildHelperStep, if_pos h0] at hstep
          exact Or.inl hstep
        · by_cases hpub : i.isPublic = true
          · refine Or.inr ⟨i, List.mem_cons_self _ _, ?_⟩
            by_cases hns : nsOn pathNs i = true
            · simp [buildStrategy, h0, hpub, hns, stratUsesPublicLoader]
            · by_cases h1 : i.files.length = 1
              · simp [buildStrategy, h0, hpub, h1, hns, stratUsesPublicLoader]
              · simp [buildStrategy, h0, hpub, h1, hns, stratUsesPublicLoader]
          · refine Or.inl ?_
            by_cases h1 : i.files.length = 1
            · by_cases hns : nsOn pathNs i = true
              · simpa [buildHelperStep, h0, hpub, h1, hns] using hstep
              · simpa [buildHelperStep, h0, hpub, h1, hns] using hstep
            · by_cases hns : nsOn pathNs i = true
              · simpa [buildHelperStep, h0, hpub, h1, hns] using hstep
              · simpa [buildHelperStep, h0, hpub, h1, hns] using hstep
      · exact Or.inr ⟨j, List.mem_cons_of_mem _ hj, hjuse⟩

theorem mem_build_deepMergeHelper (pathNs : Bool) (infos : List TInfo) :
    Segment.deepMergeHelper ∈ generateBuildTranslationsModule pathNs infos ↔
      (buildHelperFlags pathNs infos).needsDeepMerge = true := by
  simp only [generateBuildTranslationsModule, List.mem_append, List.mem_map]
  constructor
  · rintro (h | h | h | ⟨i, _, h⟩)
    · revert h; split
      · intro _; assumption
      · intro h; exact absurd h (List.not_mem_nil _)
    · revert h; split <;> intro h <;> simp at h
    · revert h; split <;> intro h <;> simp at h
    · simp at h
  · intro h
    exact Or.inl (by simp [h])

theorem mem_build_nsWrapperHelper (pathNs : Bool) (infos : List TInfo) :
    Segment.nsWrapperHelper ∈ generateBuildTranslationsModule pathNs infos ↔
      (buildHelperFlags pathNs infos).needsNamespaceWrapper = true := by
  simp only [generateBuildTranslationsModule, List.mem_append, List.mem_map]
  constructor
  · rintro (h | h | h | ⟨i, _, h⟩)
    · revert h; split <;> intro h <;> simp at h
    · revert h; split
      · intro _; assumption
      · intro h; exact absurd h (List.not_mem_nil _)
    · revert h; split <;> intro h <;> simp at h
    · simp at h
  · intro h
    exact Or.inr (Or.inl (by simp [h]))

theorem mem_build_publicLoaderHelper (pathNs : Bool) (infos : List TInfo) :
    Segment.publicLoaderHelper ∈ generateBuildTranslationsModule pathNs infos ↔
      (buildHelperFlags pathNs infos).needsPublicLoader = true := by
  simp only [generateBuildTranslationsModule, List.mem_append, List.mem_map]
  constructor
  · rintro (h | h | h | ⟨i, _, h⟩)
    · revert h; split <;> intro h <;> simp at h
    · revert h; split <;> intro h <;> simp at h
    · revert h; split
      · intro _; assumption
      · intro h; exact absurd h (List.not_mem_nil _)
    · simp at h
  · intro h
    exact Or.inr (Or.inr (Or.inl (by simp [h])))

theorem mem_dev_deepMergeHelper (pathNs : Bool) (infos : List TInfo) :
    Segment.deepMergeHelper ∈ generateDevTranslationsModule pathNs infos := by
  simp [generateDevTranslationsModule]

theorem mem_dev_publicLoaderHelper (pathNs : Bool) (infos : List TInfo) :
    Segment.publicLoaderHelper ∈ generateDevTranslationsModule pathNs infos →
      devNeedsPublic infos = true := by
  intro h
  simp only [generateDevTranslationsModule, List.mem_append, List.mem_cons,
    List.mem_map, List.mem_filterMap, List.not_mem_nil] at h
  rcases h with (h | h) | h | h | h | h
  · simp at h
  · exact absurd h (by simp)
  · revert h; split <;> intro h <;> simp at h
  · obtain ⟨i, _, h⟩ := h
    revert h; split <;> intro h <;> simp at h
  · obtain ⟨i, _, h⟩ := h
    simp at h
  · revert h; split
    · intro _; assumption
    · intro h; exact absurd h (List.not_mem_nil _)

theorem mem_dev_nsWrapperHelper (pathNs : Bool) (infos : List TInfo) :
    Segment.nsWrapperHelper ∈ generateDevTranslationsModule pathNs infos ↔
      pathNs = true := by
  constructor
  · intro h
    simp only [generateDevTranslationsModule, List.mem_append, List.mem_cons,
      List.mem_map, List.mem_filterMap, List.not_mem_nil] at h
    rcases h with (h | h) | h | h | h | h
    · simp at h
    · exact absurd h (by simp)
    · revert h; split
      · intro _; assumption
      · intro h; exact absurd h (List.not_mem_nil _)
    · obtain ⟨i, _, h⟩ := h
      revert h; split <;> intro h <;> simp at h
    · obtain ⟨i, _, h⟩ := h
      simp at h
    · revert h; split <;> intro h <;> simp at h
  · intro h
    simp [generateDevTranslationsModule, h]

/-- C9 (amended): in production (build) modules each helper routine is
emitted only when at least one emitted loader strategy textually
invokes it; the dev generator instead always emits the deepMerge helper
and emits the namespace wrapper exactly when path-based namespacing is
enabled (regardless of use in either case), while the dev public loader
helper still appears only when some locale's strategy invokes it. -/
theorem generated_module_helper_usage (pathNs : Bool) (infos : List TInfo) :
    (Segment.deepMergeHelper ∈ generateBuildTranslationsModule pathNs infos →
      ∃ i ∈ infos, stratUsesDeepMerge (buildStrategy pathNs i) = true) ∧
    (Segment.nsWrapperHelper ∈ generateBuildTranslationsModule pathNs infos →
      ∃ i ∈ infos, stratUsesWrap (buildStrategy pathNs i) = true) ∧
    (Segment.publicLoaderHelper ∈ generateBuildTranslationsModule pathNs infos →
      ∃ i ∈ infos, stratUsesPublicLoader (buildStrategy pathNs i) = true) ∧
    Segment.deepMergeHelper ∈ generateDevTranslationsModule pathNs infos ∧
    (Segment.nsWrapperHelper ∈ generateDevTranslationsModule pathNs infos ↔
      pathNs = true) ∧
    (Segment.publicLoaderHelper ∈ generateDevTranslationsModule pathNs infos →
      ∃ i ∈ infos, stratUsesPublicLoader (devStrategy pathNs i) = true) := by
  refine ⟨?_, ?_, ?_, mem_dev_deepMergeHelper pathNs infos,
    mem_dev_nsWrapperHelper pathNs infos, ?_⟩
  · intro h
    rcases foldl_buildHelperStep_deepMerge pathNs infos _
        ((mem_build_deepMergeHelper pathNs infos).mp h) with hfl | hex
    · simp at hfl
    · exact hex
  · intro h
    rcases foldl_buildHelperStep_wrap pathNs infos _
        ((mem_build_nsWrapperHelper pathNs infos).mp h) with hfl | hex
    · simp at hfl
    · exact hex
  · intro h
    rcases foldl_buildHelperStep_publicLoader pathNs infos _
        ((mem_build_publicLoaderHelper pathNs infos).mp h) with hfl | hex
    · simp at hfl
    · exact hex
  · intro h
    have hnp := mem_dev_publicLoaderHelper pathNs infos h
    rw [devNeedsPublic, List.any_eq_true] at hnp
    obtain ⟨i, hi, hcond⟩ := hnp
    simp only [Bool.and_eq_true, Bool.not_eq_true', decide_eq_false_iff_not] at hcond
    obtain ⟨h0, hpub⟩ := hcond
    refine ⟨i, hi, ?_⟩
    by_cases hns : nsOn pathNs i = true
    · simp [devStrategy, h0, hpub, hns, stratUsesPublicLoader]
    · simp [devStrategy, h0, hpub, hns, stratUsesPublicLoader]

/-- A public, namespaced, two-file locale for the C9 witness. -/
def c9Info : TInfo :=
  ⟨"en", ["/proj/public/i18n/en/a.json", "/proj/public/i18n/en/b.json"],
    none, some "/proj/public/i18n/en", true⟩

/-- Concrete instantiation of `generated_module_helper_usage`: a build
module that does contain all three helpers exhibits, for each, a
strategy that invokes it; the dev module for the same locale embeds the
namespace wrapper (namespacing is enabled) and its public loader helper
is backed by an invoking strategy. -/
theorem generated_module_helper_usage_witness :
    (∃ i ∈ [c9Info], stratUsesDeepMerge (buildStrategy true i) = true) ∧
    (∃ i ∈ [c9Info], stratUsesWrap (buildStrategy true i) = true) ∧
    (∃ i ∈ [c9Info], stratUsesPublicLoader (buildStrategy true i) = true) ∧
    Segment.nsWrapperHelper ∈ generateDevTranslationsModule true [c9Info] ∧
    (∃ i ∈ [c9Info], stratUsesPublicLoader (devStrategy true i) = true) :=
  ⟨(generated_module_helper_usage true [c9Info]).1 (by decide),
    (generated_module_helper_usage true [c9Info]).2.1 (by decide),
    (generated_module_helper_usage true [c9Info]).2.2.1 (by decide),
    (generated_module_helper_usage true [c9Info]).2.2.2.2.1.mpr rfl,
    (generated_module_helper_usage true [c9Info]).2.2.2.2.2 (by decide)⟩

/-- A heap value for the mutation analysis of `deepMerge`: primitives
are immediate, objects and arrays are references into a store, exactly
as in JS.  `deepMerge` only ever copies array references, so arrays
need no store of their own here. -/
inductive HVal where
  | null
  | bool (b : Bool)
  | num (n : Int)
  | str (s : String)
  | arrRef (a : Nat)
  | objRef (a : Nat)

/-- JS property read on a heap object's field list. -/
def getKeyH : List (String × HVal) → String → Option HVal
  | [], _ => none
  | (k', v) :: rest, k => if k' = k then some v else getKeyH rest k

/-- JS property write on a heap object's field list. -/
def setKeyH : List (String × HVal) → String → HVal → List (String × HVal)
  | [], k, v => [(k, v)]
  | (k', v') :: rest, k, v =>
      if k' = k then (k, v) :: rest else (k', v') :: setKeyH rest k v

/-- The object store: allocated objects (address paired with ordered
fields) and the next fresh address. -/
structure Heap where
  objs : List (Nat × List (String × HVal))
  next : Nat

def lookupObjList : List (Nat × List (String × HVal)) → Nat →
    Option (List (String × HVal))
  | [], _ => none
  | (a', f) :: rest, a => if a' = a then some f else lookupObjList rest a

/-- Dereference an object address. -/
def lookupObj (h : Heap) (a : Nat) : Option (List (String × HVal)) :=
  lookupObjList h.objs a

/-- `{...fields}` / object literal creation: a fresh address. -/
def allocObj (h : Heap) (fields : List (String × HVal)) : Heap :=
  ⟨(h.next, fields) :: h.objs, h.next + 1⟩

/-- `result[key] = v`: in-place update of the object at address `r`. -/
def setFieldH (h : Heap) (r : Nat) (k : String) (v : HVal) : Heap :=
  ⟨h.objs.map fun af => if af.1 = r then (af.1, setKeyH af.2 k v) else af,
    h.next⟩

/-- `result[key]` during the merge loop. -/
def getFieldH (h : Heap) (r : Nat) (k : String) : Option HVal :=
  match lookupObj h r with
  | some fields => getKeyH fields k
  | none => none

mutual

/-- `deepMerge(target, ...sources)` on the heap: allocate the shallow
copy `result = {...target}` at a fresh address, then fold each source's
fields into it in place.  `fuel` bounds the recursion depth (the JS
function itself diverges on a cyclic heap); `none` means out of fuel. -/
def deepMergeH : Nat → Heap → Nat → List Nat → Option (Heap × Nat)
  | 0, _, _, _ => none
  | fuel + 1, h, t, sources =>
      let r := h.next
      let h1 := allocObj h ((lookupObj h t).getD [])
      match mergeSourcesH fuel h1 r sources with
      | some h2 => some (h2, r)
      | none => none
termination_by fuel h t sources => (fuel, 0, 0)

/-- The `for (const source of sources)` loop. -/
def mergeSourcesH : Nat → Heap → Nat → List Nat → Option Heap
  | _, h, _, [] => some h
  | fuel, h, r, s :: rest =>
      match mergeFieldsH fuel h r ((lookupObj h s).getD []) with
      | some h2 => mergeSourcesH fuel h2 r rest
      | none => none
termination_by fuel h r sources => (fuel, 2, sources.length)

/-- The `for (const key of Object.keys(source))` loop: forbidden keys
are skipped, a key held as an object reference by both the result and
the source recurses into a fresh nested merge (the recursive call
`deepMerge(targetVal, sourceVal)` has one source), anything else is
overwritten in place at `r`. -/
def mergeFieldsH : Nat → Heap → Nat → List (String × HVal) → Option Heap
  | _, h, _, [] => some h
  | fuel, h, r, (k, sv) :: rest =>
      if FORBIDDEN_KEYS.contains k then mergeFieldsH fuel h r rest
      else
        match getFieldH h r k, sv with
        | some (HVal.objRef ta), HVal.objRef sa =>
            match deepMergeH fuel h ta [sa] with
            | some (h2, m) =>
                mergeFieldsH fuel (setFieldH h2 r k (HVal.objRef m)) r rest
            | none => none
        | _, _ => mergeFieldsH fuel (setFieldH h r k sv) r rest
termination_by fuel h r fields => (fuel, 1, fields.length)

end

theorem lookupObjList_map_setKey_ne (r : Nat) (k : String) (v : HVal) :
    ∀ (l : List (Nat × List (String × HVal))) (a : Nat), a ≠ r →
      lookupObjList
          (l.map fun af => if af.1 = r then (af.1, setKeyH af.2 k v) else af) a
        = lookupObjList l a := by
  intro l
  induction l with
  | nil => intro a _; rfl
  | cons p rest ih =>
      intro a ha
      obtain ⟨a', f⟩ := p
      by_cases hr : a' = r
      · subst hr
        rw [List.map_cons]
        rw [show (if (a', f).1 = a' then ((a', f).1, setKeyH (a', f).2 k v)
            else (a', f)) = (a', setKeyH f k v) from by simp]
        rw [lookupObjList, lookupObjList,
          if_neg (fun e => ha e.symm), if_neg (fun e => ha e.symm)]
        exact ih a ha
      · rw [List.map_cons]
        rw [show (if (a', f).1 = r then ((a', f).1, setKeyH (a', f).2 k v)
            else (a', f)) = (a', f) from by simp [hr]]
        rw [lookupObjList, lookupObjList]
        by_cases he : a' = a
        · rw [if_pos he, if_pos he]
        · rw [if_neg he, if_neg he]
          exact ih a ha

/-- Writing a field of the object at `r` leaves every other address
unchanged. -/
theorem lookupObj_setFieldH_ne (h : Heap) (r : Nat) (k : String) (v : HVal)
    (a : Nat) (ha : a ≠ r) : lookupObj (setFieldH h r k v) a = lookupObj h a :=
  lookupObjList_map_setKey_ne r k v h.objs a ha

theorem setFieldH_next (h : Heap) (r : Nat) (k : String) (v : HVal) :
    (setFieldH h r k v).next = h.next := rfl

/-- Allocation leaves every strictly older address unchanged. -/
theorem lookupObj_allocObj_lt (h : Heap) (f : List (String × HVal)) (a : Nat)
    (ha : a < h.next) : lookupObj (allocObj h f) a = lookupObj h a := by
  show lookupObjList ((h.next, f) :: h.objs) a = lookupObjList h.objs a
  rw [lookupObjList, if_neg (by omega)]

/-- Frame property of a fueled `deepMerge` run: the result address is
the pre-call allocation pointer and every pre-existing address is
unchanged. -/
def DFrame (fuel : Nat) : Prop :=
  ∀ (h : Heap) (t : Nat) (srcs : List Nat) (h' : Heap) (res : Nat),
    deepMergeH fuel h t srcs = some (h', res) →
    res = h.next ∧ h.next < h'.next ∧
      ∀ a, a < h.next → lookupObj h' a = lookupObj h a

/-- Frame property of the key loop: only the result object `r` and
fresh addresses are written. -/
def AFrame (fuel : Nat) : Prop :=
  ∀ (fields : List (String × HVal)) (h : Heap) (r : Nat) (h' : Heap),
    mergeFieldsH fuel h r fields = some h' →
    h.next ≤ h'.next ∧
      ∀ a, a < h.next → a ≠ r → lookupObj h' a = lookupObj h a

/-- Frame property of the source loop. -/
def SFrame (fuel : Nat) : Prop :=
  ∀ (srcs : List Nat) (h : Heap) (r : Nat) (h' : Heap),
    mergeSourcesH fuel h r srcs = some h' →
    h.next ≤ h'.next ∧
      ∀ a, a < h.next → a ≠ r → lookupObj h' a = lookupObj h a

theorem dframe_zero : DFrame 0 := by
  intro h t srcs h' res hrun
  simp [deepMergeH] at hrun

theorem aframe_of_dframe (fuel : Nat) (hd : DFrame fuel) : AFrame fuel := by
  intro fields
  induction fields with
  | nil =>
      intro h r h' hrun
      simp only [mergeFieldsH] at hrun
      cases hrun
      exact ⟨le_refl _, fun a _ _ => rfl⟩
  | cons p rest ih =>
      obtain ⟨k, sv⟩ := p
      intro h r h' hrun
      by_cases hrec : ∃ ta sa, getFieldH h r k = some (HVal.objRef ta) ∧
          sv = HVal.objRef sa
      · obtain ⟨ta, sa, hget, rfl⟩ := hrec
        rw [mergeFieldsH.eq_2 fuel h r k rest ta sa hget] at hrun
        by_cases hforb : FORBIDDEN_KEYS.contains k = true
        · rw [if_pos hforb] at hrun
          exact ih h r h' hrun
        · rw [if_neg hforb] at hrun
          split at hrun
          · rename_i h2 m hd2
            obtain ⟨hres, hlt, hpres⟩ := hd h ta [sa] h2 m hd2
            obtain ⟨hn, hl⟩ := ih (setFieldH h2 r k (HVal.objRef m)) r h' hrun
            rw [setFieldH_next] at hn
            constructor
            · omega
            · intro a ha har
              have h1 : a < (setFieldH h2 r k (HVal.objRef m)).next := by
                rw [setFieldH_next]; omega
              rw [hl a h1 har, lookupObj_setFieldH_ne _ _ _ _ _ har,
                hpres a ha]
          · cases hrun
      · have hside : ∀ ta sa, getFieldH h r k = some (HVal.objRef ta) →
            sv = HVal.objRef sa → False :=
          fun ta sa hg hs => hrec ⟨ta, sa, hg, hs⟩
        rw [mergeFieldsH.eq_3 fuel h r k rest sv hside] at hrun
        by_cases hforb : FORBIDDEN_KEYS.contains k = true
        · rw [if_pos hforb] at hrun
          exact ih h r h' hrun
        · rw [if_neg hforb] at hrun
          obtain ⟨hn, hl⟩ := ih (setFieldH h r k sv) r h' hrun
          rw [setFieldH_next] at hn
          refine ⟨hn, fun a ha har => ?_⟩
          have h1 : a < (setFieldH h r k sv).next := by
            rw [setFieldH_next]; exact ha
          rw [hl a h1 har, lookupObj_setFieldH_ne _ _ _ _ _ har]

theorem sframe_of_aframe (fuel : Nat) (ha : AFrame fuel) : SFrame fuel := by
  intro srcs
  induction srcs with
  | nil =>
      intro h r h' hrun
      simp only [mergeSourcesH] at hrun
      cases hrun
      exact ⟨le_refl _, fun a _ _ => rfl⟩
  | cons s rest ih =>
      intro h r h' hrun
      simp only [mergeSourcesH] at hrun
      split at hrun
      · rename_i h2 hm
        obtain ⟨hn1, hl1⟩ := ha _ h r h2 hm
        obtain ⟨hn2, hl2⟩ := ih h2 r h' hrun
        refine ⟨le_trans hn1 hn2, fun a haa har => ?_⟩
        rw [hl2 a (lt_of_lt_of_le haa hn1) har, hl1 a haa har]
      · cases hrun

theorem dframe_succ (fuel : Nat) (hs : SFrame fuel) : DFrame (fuel + 1) := by
  intro h t srcs h' res hrun
  simp only [deepMergeH] at hrun
  split at hrun
  · rename_i h2 hm
    cases hrun
    obtain ⟨hn, hl⟩ := hs srcs (allocObj h ((lookupObj h t).getD [])) h.next _ hm
    have hnext : (allocObj h ((lookupObj h t).getD [])).next = h.next + 1 := rfl
    rw [hnext] at hn
    refine ⟨rfl, by omega, fun a ha => ?_⟩
    have h1 : a < (allocObj h ((lookupObj h t).getD [])).next := by
      rw [hnext]; omega
    rw [hl a h1 (by omega), lookupObj_allocObj_lt h _ a ha]
  · cases hrun

theorem dframe_all : ∀ fuel, DFrame fuel := by
  intro fuel
  induction fuel with
  | zero => exact dframe_zero
  | succ f ih => exact dframe_succ f (sframe_of_aframe f (aframe_of_dframe f ih))

theorem lookupObjList_eq_none (n : Nat) :
    ∀ l : List (Nat × List (String × HVal)),
      (∀ p ∈ l, p.1 ≠ n) → lookupObjList l n = none := by
  intro l
  induction l with
  | nil => intro _; rfl
  | cons p rest ih =>
      intro hl
      obtain ⟨a', f⟩ := p
      rw [lookupObjList, if_neg (hl (a', f) (List.mem_cons_self _ _))]
      exact ih fun q hq => hl q (List.mem_cons_of_mem _ hq)

/-- C10: a completed `deepMerge(target, ...sources)` run on a
well-formed heap (every allocated address is below the allocation
pointer) never mutates pre-existing objects — every address allocated
before the call dereferences identically afterwards, so the target and
all sources are deep-equal to their prior values — and the merged
result lives at a fresh address that did not exist before the call. -/
theorem deepMergeH_no_mutation (fuel : Nat) (h : Heap) (t : Nat)
    (srcs : List Nat) (h' : Heap) (res : Nat)
    (hwf : ∀ p ∈ h.objs, p.1 < h.next)
    (hrun : deepMergeH fuel h t srcs = some (h', res)) :
    (∀ a, a < h.next → lookupObj h' a = lookupObj h a) ∧
    res = h.next ∧ lookupObj h res = none := by
  obtain ⟨hres, hlt, hpres⟩ := dframe_all fuel h t srcs h' res hrun
  refine ⟨hpres, hres, ?_⟩
  rw [hres]
  exact lookupObjList_eq_none h.next h.objs
    fun p hp => Nat.ne_of_lt (hwf p hp)

/-- Witness heap: target `0 = {a: @1}` with `1 = {x: 1}`, source
`2 = {a: @3}` with `3 = {y: 2}`; allocation pointer 4. -/
def c10Heap : Heap :=
  ⟨[(0, [("a", HVal.objRef 1)]), (1, [("x", HVal.num 1)]),
    (2, [("a", HVal.objRef 3)]), (3, [("y", HVal.num 2)])], 4⟩

/-- The heap after `deepMerge(@0, @2)`: the result `4 = {a: @5}` and the
nested merge `5 = {x: 1, y: 2}` are fresh; addresses 0–3 are exactly as
before. -/
def c10HeapOut : Heap :=
  ⟨[(5, [("x", HVal.num 1), ("y", HVal.num 2)]),
    (4, [("a", HVal.objRef 5)]),
    (0, [("a", HVal.objRef 1)]), (1, [("x", HVal.num 1)]),
    (2, [("a", HVal.objRef 3)]), (3, [("y", HVal.num 2)])], 6⟩

/-- Concrete instantiation of `deepMergeH_no_mutation` on a nested
merge: the pre-existing nested target object at address 1 dereferences
identically after the run, and the result address 4 was fresh. -/
theorem deepMergeH_no_mutation_witness :
    lookupObj c10HeapOut 1 = lookupObj c10Heap 1 ∧
    (4 : Nat) = c10Heap.next ∧ lookupObj c10Heap 4 = none := by
  have hrun : deepMergeH 2 c10Heap 0 [2] = some (c10HeapOut, 4) := by
    simp [deepMergeH, mergeSourcesH, mergeFieldsH, c10Heap, c10HeapOut,
      lookupObj, lookupObjList, allocObj, setFieldH, getFieldH, getKeyH,
      setKeyH, FORBIDDEN_KEYS]
  obtain ⟨hpres, hres, hfresh⟩ :=
    deepMergeH_no_mutation 2 c10Heap 0 [2] c10HeapOut 4 (by decide) hrun
  exact ⟨hpres 1 (by decide), hres, hfresh⟩
